import Mathlib

set_option maxHeartbeats 1000000
set_option maxRecDepth 8000

namespace Thousands

/-- UTF-8 encoded size in bytes of a character. -/
def utf8Size (c : Char) : Nat :=
  if c.val < 0x80 then 1
  else if c.val < 0x800 then 2
  else if c.val < 0x10000 then 3
  else 4

/-- Model of `SeparatorPolicy` from src/src/lib.rs (lines 173-191).
The `groups` entries are `u8` values in Rust; they are modelled as `Nat`
and instantiated only with values below 256. -/
structure SeparatorPolicy where
  separator : Char
  groups : List Nat
  digits : List Char

/-- Model of `digits::ASCII_DECIMAL` from src/src/lib.rs (lines 198-200). -/
def ASCII_DECIMAL : List Char :=
  ['0', '1', '2', '3', '4', '5', '6', '7', '8', '9']

/-- Model of `policies::COMMA_SEPARATOR` from src/src/lib.rs (lines 215-219). -/
def COMMA_SEPARATOR : SeparatorPolicy :=
  { separator := ',', groups := [3], digits := ASCII_DECIMAL }

/-- The digit predicate `|c| policy.digits.contains(&c)` passed to
`find_span` by `separate_by_policy` (src/src/lib.rs line 108). -/
def digitP (policy : SeparatorPolicy) (c : Char) : Bool :=
  policy.digits.contains c

/-- The loop of `insert_separator_rev` (src/src/lib.rs lines 128-140),
processing the digit characters in reverse order.  `counter` is the Rust
`u8` counter (its increment wraps modulo 256), `groups` the current slice
of group sizes.  On a match the Rust code pushes the separator, resets the
counter to zero, drops the leading group when more than one remains, and
then the common tail increments the counter to one and pushes the
character.  Returns the buffer, i.e. the formatted run in reversed order. -/
def insLoop (sep : Char) : List Char → Nat → List Nat → List Char
  | [], _, _ => []
  | c :: rest, counter, groups =>
    if groups.head? = some counter then
      sep :: c :: insLoop sep rest 1 (if 1 < groups.length then groups.tail else groups)
    else
      c :: insLoop sep rest ((counter + 1) % 256) groups

/-- Model of `insert_separator_rev` (src/src/lib.rs lines 123-143):
iterates over the characters of `number` in reverse order with the
counter starting at zero. -/
def insertSeparatorRev (number : List Char) (sep : Char) (groups : List Nat) : List Char :=
  insLoop sep number.reverse 0 groups

/-- UTF-8 byte length of a string, Rust's `str::len` (src/src/lib.rs line 157). -/
def byteLen (s : List Char) : Nat :=
  (s.map utf8Size).sum

/-- Split a string at a byte offset, modelling Rust string slicing
`&s[.. a]` and `&s[a ..]`: `none` models the panic raised when the offset
is out of bounds or does not lie on a character boundary. -/
def splitAtByte : Nat → List Char → Option (List Char × List Char)
  | 0, l => some ([], l)
  | _ + 1, [] => none
  | a + 1, c :: rest =>
    if utf8Size c ≤ a + 1 then
      (splitAtByte (a + 1 - utf8Size c) rest).map (fun q => (c :: q.1, q.2))
    else
      none

/-- Character index of the first character satisfying `p`: the value
produced by `s.chars().enumerate().skip_while(..).next()` in `find_span`
(src/src/lib.rs lines 146-152). -/
def firstIdx? (p : Char → Bool) : List Char → Option Nat
  | [] => none
  | c :: rest => if p c then some 0 else (firstIdx? p rest).map (fun i => i + 1)

/-- The `stop` value of `find_span` (src/src/lib.rs lines 154-158): the
character index of the first non-digit after the run, or the byte length
`s.len()` when the run extends to the end of the string. -/
def spanStop (s : List Char) (p : Char → Bool) (start : Nat) : Nat :=
  match firstIdx? (fun c => !(p c)) (s.drop (start + 1)) with
  | some k => start + 1 + k
  | none => byteLen s

/-- Model of `find_span` (src/src/lib.rs lines 145-161).  The function
computes `start` and `stop` as character indices (via `enumerate`) but
slices the string with those numbers used as byte offsets; `none` models
a slicing panic.  With no digit at all it returns the whole input as the
prefix without slicing. -/
def findSpanRust (s : List Char) (p : Char → Bool) :
    Option (List Char × List Char × List Char) :=
  match firstIdx? p s with
  | none => some (s, [], [])
  | some start =>
    match splitAtByte start s with
    | none => none
    | some (pre, rest) =>
      if spanStop s p start < start then none
      else
        match splitAtByte (spanStop s p start - start) rest with
        | none => none
        | some (mid, suf) => some (pre, mid, suf)

/-- Model of `separate_by_policy` (src/src/lib.rs lines 106-120) applied
to the rendered string: split the span, insert separators into the digit
run, and emit prefix, reversed buffer and suffix.  `none` models a panic
inside `find_span`. -/
def sepByPolicy (policy : SeparatorPolicy) (s : List Char) : Option (List Char) :=
  match findSpanRust s (digitP policy) with
  | none => none
  | some (before, number, after) =>
    some (before ++ (insertSeparatorRev number policy.separator policy.groups).reverse ++ after)

/-- The ASCII character of a decimal digit value. -/
def natDigitChar (d : Nat) : Char := Char.ofNat (48 + d)

/-- Fuel-driven decimal rendering helper. -/
def natCharsAux : Nat → Nat → List Char
  | 0, _ => []
  | fuel + 1, n =>
    if n < 10 then [natDigitChar n]
    else natCharsAux fuel (n / 10) ++ [natDigitChar (n % 10)]

/-- Decimal rendering of a natural number, most significant digit first:
the string produced by `self.to_string()` (src/src/lib.rs line 107) for a
non-negative integer. -/
def natChars (n : Nat) : List Char := natCharsAux (n + 1) n

/-! ### Basic lemmas about the separator-insertion loop -/

theorem insLoop_nil_groups (sep : Char) :
    ∀ (cs : List Char) (k : Nat), insLoop sep cs k [] = cs := by
  intro cs
  induction cs with
  | nil => intro k; rfl
  | cons c rest ih =>
    intro k
    simp [insLoop, ih]

theorem insLoop_length (sep : Char) :
    ∀ (cs : List Char) (k : Nat) (gs : List Nat),
      cs.length ≤ (insLoop sep cs k gs).length := by
  intro cs
  induction cs with
  | nil => intro k gs; simp [insLoop]
  | cons c rest ih =>
    intro k gs
    by_cases h : gs.head? = some k
    · simp only [insLoop, if_pos h, List.length_cons]
      have := ih 1 (if 1 < gs.length then gs.tail else gs)
      omega
    · simp only [insLoop, if_neg h, List.length_cons]
      have := ih ((k + 1) % 256) gs
      omega

theorem insLoop_ne_nil (sep c : Char) (rest : List Char) (k : Nat) (gs : List Nat) :
    insLoop sep (c :: rest) k gs ≠ [] := by
  by_cases h : gs.head? = some k <;> simp [insLoop, h]

theorem getLast?_cons_of_ne_nil (a : Char) (l : List Char) (h : l ≠ []) :
    (a :: l).getLast? = l.getLast? := by
  rcases List.exists_cons_of_ne_nil h with ⟨b, t, rfl⟩
  exact List.getLast?_cons_cons

theorem insLoop_getLast? (sep : Char) :
    ∀ (cs : List Char) (k : Nat) (gs : List Nat),
      (insLoop sep cs k gs).getLast? = cs.getLast? := by
  intro cs
  induction cs with
  | nil => intro k gs; rfl
  | cons c rest ih =>
    intro k gs
    by_cases hr : rest = []
    · subst hr
      by_cases h : gs.head? = some k <;> simp [insLoop, h]
    · rcases List.exists_cons_of_ne_nil hr with ⟨d, r2, hdr⟩
      by_cases h : gs.head? = some k
      · have step : insLoop sep (c :: rest) k gs =
            sep :: c :: insLoop sep rest 1 (if 1 < gs.length then gs.tail else gs) := by
          simp only [insLoop, if_pos h]
        have hL : insLoop sep rest 1 (if 1 < gs.length then gs.tail else gs) ≠ [] := by
          rw [hdr]; exact insLoop_ne_nil sep d r2 1 _
        rw [step, List.getLast?_cons_cons, getLast?_cons_of_ne_nil c _ hL, ih 1 _,
          getLast?_cons_of_ne_nil c rest hr]
      · have step : insLoop sep (c :: rest) k gs =
            c :: insLoop sep rest ((k + 1) % 256) gs := by
          simp only [insLoop, if_neg h]
        have hL : insLoop sep rest ((k + 1) % 256) gs ≠ [] := by
          rw [hdr]; exact insLoop_ne_nil sep d r2 _ gs
        rw [step, getLast?_cons_of_ne_nil c _ hL, ih ((k + 1) % 256) gs,
          getLast?_cons_of_ne_nil c rest hr]

theorem insLoop_mem (sep : Char) :
    ∀ (cs : List Char) (k : Nat) (gs : List Nat) (x : Char),
      x ∈ insLoop sep cs k gs → x = sep ∨ x ∈ cs := by
  intro cs
  induction cs with
  | nil => intro k gs x hx; simp [insLoop] at hx
  | cons c rest ih =>
    intro k gs x hx
    by_cases h : gs.head? = some k
    · simp only [insLoop, if_pos h, List.mem_cons] at hx
      rcases hx with hx | hx | hx
      · exact Or.inl hx
      · exact Or.inr (by simp [hx])
      · rcases ih 1 _ x hx with h2 | h2
        · exact Or.inl h2
        · exact Or.inr (by simp [h2])
    · simp only [insLoop, if_neg h, List.mem_cons] at hx
      rcases hx with hx | hx
      · exact Or.inr (by simp [hx])
      · rcases ih ((k + 1) % 256) gs x hx with h2 | h2
        · exact Or.inl h2
        · exact Or.inr (by simp [h2])

/-! ### Basic lemmas about byte-offset slicing -/

theorem splitAtByte_append :
    ∀ (n : Nat) (l x y : List Char), splitAtByte n l = some (x, y) → x ++ y = l := by
  intro n
  induction n using Nat.strong_induction_on with
  | _ n ih =>
    intro l x y h
    match n, l with
    | 0, l =>
      simp [splitAtByte] at h
      simp [← h.1, ← h.2]
    | a + 1, [] => simp [splitAtByte] at h
    | a + 1, c :: rest =>
      rw [splitAtByte] at h
      by_cases hle : utf8Size c ≤ a + 1
      · rw [if_pos hle] at h
        match hrec : splitAtByte (a + 1 - utf8Size c) rest with
        | none => rw [hrec] at h; simp at h
        | some (x2, y2) =>
          rw [hrec] at h
          simp at h
          have hlt : a + 1 - utf8Size c < a + 1 := by
            have : 1 ≤ utf8Size c := by
              unfold utf8Size
              split <;> [omega; split <;> [omega; split <;> omega]]
            omega
          have := ih _ hlt rest x2 y2 hrec
          rw [← h.1, ← h.2]
          simp [this]
      · rw [if_neg hle] at h; simp at h

theorem utf8Size_pos (c : Char) : 1 ≤ utf8Size c := by
  unfold utf8Size
  split <;> [omega; split <;> [omega; split <;> omega]]

theorem byteLen_ascii :
    ∀ (l : List Char), (∀ c ∈ l, utf8Size c = 1) → byteLen l = l.length := by
  intro l
  induction l with
  | nil => intro _; rfl
  | cons c rest ih =>
    intro h
    have hc : utf8Size c = 1 := h c (by simp)
    have := ih (fun x hx => h x (by simp [hx]))
    simp only [byteLen, List.map_cons, List.sum_cons, List.length_cons] at *
    omega

theorem splitAtByte_ascii :
    ∀ (l : List Char), (∀ c ∈ l, utf8Size c = 1) →
      ∀ k, k ≤ l.length → splitAtByte k l = some (l.take k, l.drop k) := by
  intro l
  induction l with
  | nil =>
    intro _ k hk
    have hk0 : k = 0 := by simpa using hk
    subst hk0
    rfl
  | cons c rest ih =>
    intro h k hk
    match k with
    | 0 => rfl
    | k + 1 =>
      have hc : utf8Size c = 1 := h c (by simp)
      have hk2 : k ≤ rest.length := by
        simp only [List.length_cons] at hk
        omega
      rw [splitAtByte, if_pos (by omega)]
      have hsub : k + 1 - utf8Size c = k := by omega
      rw [hsub, ih (fun x hx => h x (by simp [hx])) k hk2]
      simp

/-! ### Lemmas about the index search -/

theorem firstIdx?_eq_none (p : Char → Bool) :
    ∀ (l : List Char), (∀ c ∈ l, p c = false) → firstIdx? p l = none := by
  intro l
  induction l with
  | nil => intro _; rfl
  | cons c rest ih =>
    intro h
    have hc : p c = false := h c (by simp)
    simp [firstIdx?, hc, ih (fun x hx => h x (by simp [hx]))]

theorem dropWhile_head_false (q : Char → Bool) :
    ∀ (l : List Char) (h : Char) (t : List Char),
      l.dropWhile q = h :: t → q h = false := by
  intro l
  induction l with
  | nil => intro h t he; simp [List.dropWhile] at he
  | cons c rest ih =>
    intro h t he
    by_cases hc : q c = true
    · rw [List.dropWhile_cons_of_pos hc] at he
      exact ih h t he
    · rw [List.dropWhile_cons_of_neg hc] at he
      simp only [Bool.not_eq_true] at hc
      injection he with h1 _
      rw [← h1]
      exact hc

theorem firstIdx?_of_dropWhile (p : Char → Bool) :
    ∀ (l : List Char) (h : Char) (t : List Char),
      l.dropWhile (fun c => !(p c)) = h :: t →
      firstIdx? p l = some (l.takeWhile (fun c => !(p c))).length := by
  intro l
  induction l with
  | nil => intro h t he; simp [List.dropWhile] at he
  | cons c rest ih =>
    intro h t he
    by_cases hc : p c = true
    · have hnc : ¬((fun c => !(p c)) c = true) := by simp [hc]
      rw [List.takeWhile_cons_of_neg (p := fun c => !(p c)) hnc]
      simp [firstIdx?, hc]
    · have hnc : (fun c => !(p c)) c = true := by simp [hc]
      rw [List.dropWhile_cons_of_pos (p := fun c => !(p c)) hnc] at he
      rw [List.takeWhile_cons_of_pos (p := fun c => !(p c)) hnc]
      simp only [firstIdx?, if_neg hc, ih h t he, List.length_cons]
      rfl

theorem firstIdx?_not_of_dropWhile (p : Char → Bool) :
    ∀ (l : List Char) (h : Char) (t : List Char),
      l.dropWhile p = h :: t →
      firstIdx? (fun c => !(p c)) l = some (l.takeWhile p).length := by
  intro l
  induction l with
  | nil => intro h t he; simp [List.dropWhile] at he
  | cons c rest ih =>
    intro h t he
    by_cases hc : p c = true
    · rw [List.dropWhile_cons_of_pos hc] at he
      rw [List.takeWhile_cons_of_pos hc]
      have hnc : ¬((fun c => !(p c)) c = true) := by simp [hc]
      simp only [firstIdx?, if_neg hnc, ih h t he, List.length_cons]
      rfl
    · rw [List.takeWhile_cons_of_neg hc]
      have hnc : (fun c => !(p c)) c = true := by simp [hc]
      simp [firstIdx?, hnc]

/-! ### Lemmas about `takeWhile` and `dropWhile` -/

theorem dropWhile_nil_all (q : Char → Bool) (l : List Char)
    (h : l.dropWhile q = []) : ∀ c ∈ l, q c = true := by
  intro c hc
  have hself : l.takeWhile q = l := by
    have := List.takeWhile_append_dropWhile q l
    rw [h] at this
    simpa using this
  exact List.mem_takeWhile_imp (by rw [hself]; exact hc)

theorem take_length_takeWhile (q : Char → Bool) (l : List Char) :
    l.take (l.takeWhile q).length = l.takeWhile q := by
  calc l.take (l.takeWhile q).length
      = (l.takeWhile q ++ l.dropWhile q).take (l.takeWhile q).length := by
        rw [List.takeWhile_append_dropWhile]
    _ = l.takeWhile q := List.take_left _ _

theorem drop_length_takeWhile (q : Char → Bool) (l : List Char) :
    l.drop (l.takeWhile q).length = l.dropWhile q := by
  calc l.drop (l.takeWhile q).length
      = (l.takeWhile q ++ l.dropWhile q).drop (l.takeWhile q).length := by
        rw [List.takeWhile_append_dropWhile]
    _ = l.dropWhile q := List.drop_left _ _

theorem length_takeWhile_le (q : Char → Bool) (l : List Char) :
    (l.takeWhile q).length ≤ l.length :=
  (List.takeWhile_sublist q).length_le

/-! ### Behaviour of `find_span` -/

theorem findSpan_partition (s : List Char) (p : Char → Bool) (b m a : List Char)
    (h : findSpanRust s p = some (b, m, a)) : b ++ m ++ a = s := by
  unfold findSpanRust at h
  split at h
  · simp only [Option.some.injEq, Prod.mk.injEq] at h
    obtain ⟨rfl, rfl, rfl⟩ := h
    simp
  · rename_i start hfi
    split at h
    · simp at h
    · rename_i pre rest hsp
      split at h
      · simp at h
      · split at h
        · simp at h
        · rename_i mid suf hsp2
          have e1 := splitAtByte_append _ s pre rest hsp
          have e2 := splitAtByte_append _ rest mid suf hsp2
          simp only [Option.some.injEq, Prod.mk.injEq] at h
          obtain ⟨rfl, rfl, rfl⟩ := h
          rw [List.append_assoc, e2, e1]

theorem span_no_digits (s : List Char) (p : Char → Bool)
    (h : ∀ c ∈ s, p c = false) : findSpanRust s p = some (s, [], []) := by
  unfold findSpanRust
  rw [firstIdx?_eq_none p s h]

/-- On a string of one-byte characters the character indices of `find_span`
coincide with byte offsets, and the function returns the first maximal run
of `p`-characters together with its surroundings. -/
theorem spanAscii (s : List Char) (p : Char → Bool)
    (hA : ∀ c ∈ s, utf8Size c = 1) :
    findSpanRust s p =
      some (s.takeWhile (fun c => !(p c)),
            (s.dropWhile (fun c => !(p c))).takeWhile p,
            (s.dropWhile (fun c => !(p c))).dropWhile p) := by
  cases hr : s.dropWhile (fun c => !(p c)) with
  | nil =>
    have hall : ∀ c ∈ s, p c = false := by
      intro c hc
      have := dropWhile_nil_all (fun c => !(p c)) s hr c hc
      simpa using this
    have hts : s.takeWhile (fun c => !(p c)) = s := by
      have := List.takeWhile_append_dropWhile (fun c => !(p c)) s
      rw [hr] at this
      simpa using this
    rw [span_no_digits s p hall, hts]
    simp [List.takeWhile, List.dropWhile]
  | cons hd r2 =>
    have htr : s.takeWhile (fun c => !(p c)) ++ (hd :: r2) = s := by
      rw [← hr]; exact List.takeWhile_append_dropWhile _ s
    have hph : p hd = true := by
      have := dropWhile_head_false (fun c => !(p c)) s hd r2 hr
      simpa using this
    have hfi : firstIdx? p s = some (s.takeWhile (fun c => !(p c))).length :=
      firstIdx?_of_dropWhile p s hd r2 hr
    have hlen_s : s.length = (s.takeWhile (fun c => !(p c))).length + 1 + r2.length := by
      conv_lhs => rw [← htr]
      simp
      omega
    have hds : s.drop ((s.takeWhile (fun c => !(p c))).length + 1) = r2 := by
      have hstep : s.drop (s.takeWhile (fun c => !(p c))).length = hd :: r2 := by
        rw [drop_length_takeWhile, hr]
      rw [← List.drop_drop, hstep]
      rfl
    have htake : s.take (s.takeWhile (fun c => !(p c))).length =
        s.takeWhile (fun c => !(p c)) := take_length_takeWhile _ s
    have hdrop : s.drop (s.takeWhile (fun c => !(p c))).length = hd :: r2 := by
      rw [drop_length_takeWhile, hr]
    have hsp : splitAtByte (s.takeWhile (fun c => !(p c))).length s =
        some (s.takeWhile (fun c => !(p c)), hd :: r2) := by
      rw [splitAtByte_ascii s hA _ (by omega), htake, hdrop]
    have hrest_ascii : ∀ c ∈ hd :: r2, utf8Size c = 1 := by
      intro c hc
      exact hA c (by rw [← htr]; exact List.mem_append_right _ hc)
    unfold findSpanRust
    split
    · rename_i hfi2
      rw [hfi] at hfi2
      exact absurd hfi2 (by simp)
    · rename_i start hfi2
      rw [hfi] at hfi2
      injection hfi2 with hstart
      subst hstart
      simp only [hsp]
      rw [List.takeWhile_cons_of_pos hph, List.dropWhile_cons_of_pos hph]
      cases hveq : r2.dropWhile p with
      | nil =>
        have hstop : spanStop s p (s.takeWhile (fun c => !(p c))).length = s.length := by
          unfold spanStop
          rw [hds, firstIdx?_eq_none _ r2 (by
            intro c hc
            simp [dropWhile_nil_all p r2 hveq c hc]), byteLen_ascii s hA]
        have hu : r2.takeWhile p = r2 := by
          have := List.takeWhile_append_dropWhile p r2
          rw [hveq] at this
          simpa using this
        have harg : s.length - (s.takeWhile (fun c => !(p c))).length = r2.length + 1 := by
          omega
        simp only [hstop, harg, if_neg (show ¬(s.length <
          (s.takeWhile (fun c => !(p c))).length) by omega)]
        simp only [splitAtByte_ascii (hd :: r2) hrest_ascii (r2.length + 1) (by simp),
          List.take_succ_cons, List.drop_succ_cons,
          List.take_of_length_le le_rfl, List.drop_eq_nil_of_le le_rfl, hu, hveq]
      | cons w v2 =>
        have hstop : spanStop s p (s.takeWhile (fun c => !(p c))).length =
            (s.takeWhile (fun c => !(p c))).length + 1 + (r2.takeWhile p).length := by
          unfold spanStop
          rw [hds, firstIdx?_not_of_dropWhile p r2 w v2 hveq]
        have hlenu : (r2.takeWhile p).length ≤ r2.length := length_takeWhile_le p r2
        have harg : (s.takeWhile (fun c => !(p c))).length + 1 + (r2.takeWhile p).length -
            (s.takeWhile (fun c => !(p c))).length = (r2.takeWhile p).length + 1 := by
          omega
        simp only [hstop, harg, if_neg (show ¬((s.takeWhile (fun c => !(p c))).length + 1 +
          (r2.takeWhile p).length < (s.takeWhile (fun c => !(p c))).length) by omega)]
        simp only [splitAtByte_ascii (hd :: r2) hrest_ascii ((r2.takeWhile p).length + 1)
          (by simp; omega), List.take_succ_cons, List.drop_succ_cons,
          take_length_takeWhile, drop_length_takeWhile, hveq]

/-! ### Grouping structure of the separator-insertion loop -/

/-- Reference description of the buffer produced for a singleton group
list `[g]`: `r` is the remaining capacity of the current group; after a
group fills up, a separator is emitted exactly when more characters
remain. -/
def groupedRevR (sep : Char) (g : Nat) : Nat → List Char → List Char
  | _, [] => []
  | r, c :: rest =>
    if r ≤ 1 then
      match rest with
      | [] => [c]
      | _ :: _ => c :: sep :: groupedRevR sep g g rest
    else
      c :: groupedRevR sep g (r - 1) rest

/-- The chunks of a (reversed) digit run: a first chunk of `r` characters,
then chunks of `g` characters, the final chunk possibly shorter. -/
def chunksF (g : Nat) : Nat → List Char → List (List Char)
  | _, [] => []
  | r, c :: rest => (c :: rest.take (r - 1)) :: chunksF g g (rest.drop (r - 1))
termination_by r l => l.length
decreasing_by simp [List.length_drop]; omega

theorem flatten_intersperse_cons_cons (x a b : List Char) (t : List (List Char)) :
    (List.intersperse x (a :: b :: t)).flatten =
      a ++ x ++ (List.intersperse x (b :: t)).flatten := by
  simp [List.intersperse]

theorem flatten_intersperse_cons_head (x : List Char) (a : Char) (y : List Char)
    (t : List (List Char)) :
    (List.intersperse x ((a :: y) :: t)).flatten =
      a :: (List.intersperse x (y :: t)).flatten := by
  cases t with
  | nil => simp [List.intersperse]
  | cons b t2 =>
    rw [flatten_intersperse_cons_cons, flatten_intersperse_cons_cons]
    simp

theorem flatten_intersperse_append_single (x y : List Char) :
    ∀ L : List (List Char), L ≠ [] →
      (List.intersperse x (L ++ [y])).flatten =
        (List.intersperse x L).flatten ++ x ++ y := by
  intro L
  induction L with
  | nil => intro h; exact absurd rfl h
  | cons a t ih =>
    intro _
    cases t with
    | nil => simp [List.intersperse]
    | cons b t2 =>
      have h1 : (a :: b :: t2) ++ [y] = a :: ((b :: t2) ++ [y]) := rfl
      have h2 : (b :: t2) ++ [y] = b :: (t2 ++ [y]) := rfl
      rw [h1, h2, flatten_intersperse_cons_cons, ← h2, ih (by simp),
        flatten_intersperse_cons_cons]
      simp [List.append_assoc]

theorem flatten_intersperse_reverse (x : List Char) :
    ∀ L : List (List Char),
      (List.intersperse x L).flatten.reverse =
        (List.intersperse x.reverse ((L.map List.reverse).reverse)).flatten := by
  intro L
  induction L with
  | nil => simp
  | cons a t ih =>
    cases t with
    | nil => simp [List.intersperse]
    | cons b t2 =>
      rw [flatten_intersperse_cons_cons]
      rw [List.reverse_append, List.reverse_append, ih]
      have h1 : ((a :: b :: t2).map List.reverse).reverse =
          (((b :: t2).map List.reverse).reverse) ++ [a.reverse] := by simp
      rw [h1, flatten_intersperse_append_single x.reverse a.reverse _ (by simp)]
      simp [List.append_assoc]

theorem chunksF_flatten (g : Nat) :
    ∀ (n : Nat) (l : List Char), l.length ≤ n → ∀ r, (chunksF g r l).flatten = l := by
  intro n
  induction n with
  | zero =>
    intro l hl r
    have hnil : l = [] := by
      cases l with
      | nil => rfl
      | cons c rest => simp at hl
    subst hnil
    simp [chunksF]
  | succ n ih =>
    intro l hl r
    cases l with
    | nil => simp [chunksF]
    | cons c rest =>
      simp only [chunksF, List.flatten_cons]
      rw [ih (rest.drop (r - 1)) (by
        have := List.length_drop (r - 1) rest
        simp only [List.length_cons] at hl
        omega) g]
      simp [List.take_append_drop]

theorem chunksF_struct (g : Nat) (hg : 1 ≤ g) :
    ∀ (n : Nat) (l : List Char), l.length ≤ n → l ≠ [] →
      ∃ C last, chunksF g g l = C ++ [last] ∧ (∀ x ∈ C, x.length = g) ∧
        1 ≤ last.length ∧ last.length ≤ g := by
  intro n
  induction n with
  | zero =>
    intro l hl hne
    cases l with
    | nil => exact absurd rfl hne
    | cons c rest => simp at hl
  | succ n ih =>
    intro l hl hne
    cases l with
    | nil => exact absurd rfl hne
    | cons c rest =>
      simp only [chunksF]
      by_cases hrem : rest.drop (g - 1) = []
      · refine ⟨[], c :: rest.take (g - 1), ?_, ?_, ?_, ?_⟩
        · rw [hrem]; simp [chunksF]
        · intro x hx; simp at hx
        · simp
        · have := List.length_take (g - 1) rest
          simp only [List.length_cons]
          have hmin : (rest.take (g - 1)).length ≤ g - 1 := by
            rw [this]; omega
          omega
      · have hlen : (rest.drop (g - 1)).length ≤ n := by
          have := List.length_drop (g - 1) rest
          simp only [List.length_cons] at hl
          omega
        obtain ⟨C, last, hC, hCl, hl1, hl2⟩ := ih (rest.drop (g - 1)) hlen hrem
        have hrest_len : g - 1 ≤ rest.length := by
          by_contra hcon
          exact hrem (List.drop_eq_nil_of_le (by omega))
        refine ⟨(c :: rest.take (g - 1)) :: C, last, ?_, ?_, hl1, hl2⟩
        · rw [hC]; rfl
        · intro x hx
          rcases List.mem_cons.mp hx with hx | hx
          · rw [hx]
            simp only [List.length_cons, List.length_take]
            omega
          · exact hCl x hx

/-- For a singleton group list the Rust loop follows the reference
description: with counter `k` it behaves like a group with `g - k`
capacity remaining, and with counter `g` it first emits a separator. -/
theorem insLoop_single (sep : Char) (g : Nat) (hg1 : 1 ≤ g) (hg2 : g ≤ 255) :
    ∀ (n : Nat) (cs : List Char), cs.length ≤ n → ∀ k, k ≤ g →
      insLoop sep cs k [g] =
        if k = g ∧ cs ≠ [] then sep :: groupedRevR sep g g cs
        else groupedRevR sep g (g - k) cs := by
  intro n
  induction n with
  | zero =>
    intro cs hcs k _
    have hnil : cs = [] := by
      cases cs with
      | nil => rfl
      | cons c rest => simp at hcs
    subst hnil
    simp [insLoop, groupedRevR]
  | succ n ih =>
    intro cs hcs k hk
    cases cs with
    | nil => simp [insLoop, groupedRevR]
    | cons c rest =>
      have hrest_len : rest.length ≤ n := by
        simp only [List.length_cons] at hcs
        omega
      by_cases hkg : k = g
      · rw [if_pos ⟨hkg, by simp⟩]
        have hmatch : insLoop sep (c :: rest) k [g] = sep :: c :: insLoop sep rest 1 [g] := by
          simp [insLoop, hkg]
        rw [hmatch]
        by_cases hgone : g = 1
        · subst hgone
          rw [ih rest hrest_len 1 le_rfl]
          cases hrest : rest with
          | nil => simp [groupedRevR]
          | cons d r2 =>
            rw [if_pos ⟨rfl, by simp⟩]
            simp [groupedRevR]
        · rw [ih rest hrest_len 1 (by omega), if_neg (by
            intro hcon
            exact hgone hcon.1.symm)]
          have hnotle : ¬(g ≤ 1) := by omega
          simp [groupedRevR, hnotle]
      · have hcond : ¬(([g] : List Nat).head? = some k) := by
          simp only [List.head?_cons, Option.some.injEq]
          exact fun h => hkg h.symm
        have hnomatch : insLoop sep (c :: rest) k [g] =
            c :: insLoop sep rest ((k + 1) % 256) [g] := by
          simp only [insLoop, if_neg hcond]
        have hmod : (k + 1) % 256 = k + 1 := Nat.mod_eq_of_lt (by omega)
        rw [if_neg (by intro hcon; exact hkg hcon.1), hnomatch, hmod]
        by_cases hk1 : k + 1 = g
        · rw [ih rest hrest_len (k + 1) (by omega)]
          have hgk : g - k = 1 := by omega
          cases hrest : rest with
          | nil =>
            rw [if_neg (by simp)]
            simp [groupedRevR, hgk]
          | cons d r2 =>
            rw [if_pos ⟨hk1, by simp⟩]
            simp [groupedRevR, hgk]
        · rw [ih rest hrest_len (k + 1) (by omega), if_neg (by
            intro hcon
            exact hk1 hcon.1)]
          have hnotle : ¬(g - k ≤ 1) := by omega
          have harith : g - k - 1 = g - (k + 1) := by omega
          simp [groupedRevR, hnotle, harith]

/-- The reference loop produces the chunks of the run joined with single
separators. -/
theorem groupedRevR_eq (sep : Char) (g : Nat) :
    ∀ (n : Nat) (cs : List Char), cs.length ≤ n → ∀ r, 1 ≤ r → r ≤ g →
      groupedRevR sep g r cs = (List.intersperse [sep] (chunksF g r cs)).flatten := by
  intro n
  induction n with
  | zero =>
    intro cs hcs r _ _
    have hnil : cs = [] := by
      cases cs with
      | nil => rfl
      | cons c rest => simp at hcs
    subst hnil
    simp [groupedRevR, chunksF]
  | succ n ih =>
    intro cs hcs r hr1 hrg
    cases cs with
    | nil => simp [groupedRevR, chunksF]
    | cons c rest =>
      have hrest_len : rest.length ≤ n := by
        simp only [List.length_cons] at hcs
        omega
      by_cases hr : r ≤ 1
      · have hrone : r = 1 := by omega
        subst hrone
        cases hrest : rest with
        | nil => simp [groupedRevR, chunksF, List.intersperse]
        | cons d r2 =>
          have hlhs : groupedRevR sep g 1 (c :: d :: r2) =
              c :: sep :: groupedRevR sep g g (d :: r2) := by
            simp [groupedRevR]
          have hch1 : chunksF g 1 (c :: d :: r2) = [c] :: chunksF g g (d :: r2) := by
            simp [chunksF]
          have hch2 : chunksF g g (d :: r2) =
              (d :: r2.take (g - 1)) :: chunksF g g (r2.drop (g - 1)) := by
            simp [chunksF]
          rw [hlhs, hch1, hch2, flatten_intersperse_cons_cons, ← hch2,
            ih (d :: r2) (by rw [← hrest]; exact hrest_len) g hrg le_rfl]
          simp
      · cases hrest : rest with
        | nil =>
          have hnotle : ¬(r ≤ 1) := hr
          simp [groupedRevR, chunksF, hnotle, List.intersperse]
        | cons d r2 =>
          have hlhs : groupedRevR sep g r (c :: d :: r2) =
              c :: groupedRevR sep g (r - 1) (d :: r2) := by
            have hnotle : ¬(r ≤ 1) := hr
            simp [groupedRevR, hnotle]
          have htk : (d :: r2).take (r - 1) = d :: r2.take (r - 2) := by
            have : r - 1 = (r - 2) + 1 := by omega
            rw [this, List.take_succ_cons]
          have hdr : (d :: r2).drop (r - 1) = r2.drop (r - 2) := by
            have : r - 1 = (r - 2) + 1 := by omega
            rw [this, List.drop_succ_cons]
          have hch : chunksF g r (c :: d :: r2) =
              (c :: d :: r2.take (r - 2)) :: chunksF g g (r2.drop (r - 2)) := by
            rw [chunksF.eq_def]
            simp only [htk, hdr]
          have hch2 : chunksF g (r - 1) (d :: r2) =
              (d :: r2.take (r - 2)) :: chunksF g g (r2.drop (r - 2)) := by
            rw [chunksF.eq_def]
            simp only []
            have h1 : r - 1 - 1 = r - 2 := by omega
            rw [h1]
          rw [hlhs, ih (d :: r2) (by rw [← hrest]; exact hrest_len) (r - 1)
            (by omega) (by omega), hch, hch2, flatten_intersperse_cons_head,
            flatten_intersperse_cons_head, flatten_intersperse_cons_head]

/-- `insert_separator_rev` with the singleton group list `[g]` produces the
`g`-chunks of the reversed run joined by single separators. -/
theorem insertSeparatorRev_single (sep : Char) (g : Nat) (hg1 : 1 ≤ g) (hg2 : g ≤ 255)
    (m : List Char) :
    insertSeparatorRev m sep [g] = (List.intersperse [sep] (chunksF g g m.reverse)).flatten := by
  unfold insertSeparatorRev
  rw [insLoop_single sep g hg1 hg2 m.reverse.length m.reverse le_rfl 0 (by omega)]
  rw [if_neg (by rintro ⟨h0, _⟩; omega)]
  have h0 : g - 0 = g := by omega
  rw [h0, groupedRevR_eq sep g m.reverse.length m.reverse le_rfl g hg1 le_rfl]

/-- Reading-order form of the previous lemma: the run, as emitted into the
output, is the reversed chunks joined by single separators. -/
theorem insertSeparatorRev_single_rev (sep : Char) (g : Nat) (hg1 : 1 ≤ g) (hg2 : g ≤ 255)
    (m : List Char) :
    (insertSeparatorRev m sep [g]).reverse =
      (List.intersperse [sep] (((chunksF g g m.reverse).map List.reverse).reverse)).flatten := by
  rw [insertSeparatorRev_single sep g hg1 hg2 m, flatten_intersperse_reverse]
  simp

/-! ### The decimal rendering -/

theorem natDigitChar_mem (d : Nat) (h : d < 10) : natDigitChar d ∈ ASCII_DECIMAL := by
  interval_cases d <;> decide

theorem natCharsAux_spec : ∀ (fuel n : Nat), n < fuel →
    natCharsAux fuel n ≠ [] ∧ ∀ c ∈ natCharsAux fuel n, c ∈ ASCII_DECIMAL := by
  intro fuel
  induction fuel with
  | zero => intro n h; omega
  | succ fuel ih =>
    intro n h
    by_cases h10 : n < 10
    · refine ⟨by simp [natCharsAux, h10], ?_⟩
      intro c hc
      simp [natCharsAux, h10] at hc
      rw [hc]
      exact natDigitChar_mem n h10
    · have hdiv : n / 10 < fuel := by
        have h1 : n / 10 < n := Nat.div_lt_self (by omega) (by omega)
        omega
      obtain ⟨ih1, ih2⟩ := ih (n / 10) hdiv
      refine ⟨by simp [natCharsAux, h10], ?_⟩
      intro c hc
      simp only [natCharsAux, if_neg h10, List.mem_append, List.mem_singleton] at hc
      rcases hc with hc | hc
      · exact ih2 c hc
      · rw [hc]
        exact natDigitChar_mem _ (Nat.mod_lt _ (by omega))

theorem natChars_ne_nil (n : Nat) : natChars n ≠ [] :=
  (natCharsAux_spec (n + 1) n (by omega)).1

theorem natChars_digits (n : Nat) : ∀ c ∈ natChars n, c ∈ ASCII_DECIMAL :=
  (natCharsAux_spec (n + 1) n (by omega)).2

/-! ### The digit predicate and ASCII digits -/

theorem digitP_iff (policy : SeparatorPolicy) (c : Char) :
    digitP policy c = true ↔ c ∈ policy.digits := by
  simp [digitP, List.contains, List.elem_iff]

theorem ascii_dec_utf8 (c : Char) (h : c ∈ ASCII_DECIMAL) : utf8Size c = 1 := by
  fin_cases h <;> decide

theorem takeWhile_all (q : Char → Bool) :
    ∀ l : List Char, (∀ c ∈ l, q c = true) → l.takeWhile q = l := by
  intro l
  induction l with
  | nil => intro _; rfl
  | cons c rest ih =>
    intro h
    rw [List.takeWhile_cons_of_pos (h c (by simp)), ih (fun x hx => h x (by simp [hx]))]

theorem dropWhile_all (q : Char → Bool) :
    ∀ l : List Char, (∀ c ∈ l, q c = true) → l.dropWhile q = [] := by
  intro l
  induction l with
  | nil => intro _; rfl
  | cons c rest ih =>
    intro h
    rw [List.dropWhile_cons_of_pos (h c (by simp)), ih (fun x hx => h x (by simp [hx]))]

/-- A non-empty all-digit ASCII string is returned whole as the span. -/
theorem span_all_digits (s : List Char) (p : Char → Bool)
    (hA : ∀ c ∈ s, utf8Size c = 1) (hne : s ≠ []) (hall : ∀ c ∈ s, p c = true) :
    findSpanRust s p = some ([], s, []) := by
  rw [spanAscii s p hA]
  have h1 : s.takeWhile (fun c => !(p c)) = [] := by
    rcases List.exists_cons_of_ne_nil hne with ⟨c, rest, rfl⟩
    rw [List.takeWhile_cons_of_neg (by simp [hall c (by simp)])]
  have h2 : s.dropWhile (fun c => !(p c)) = s := by
    have := List.takeWhile_append_dropWhile (fun c => !(p c)) s
    rw [h1] at this
    simpa using this
  rw [h1, h2, takeWhile_all p s hall, dropWhile_all p s hall]

/-- Unfolding `separate_by_policy` once the span is known. -/
theorem sepByPolicy_of_span (policy : SeparatorPolicy) (s b m a : List Char)
    (h : findSpanRust s (digitP policy) = some (b, m, a)) :
    sepByPolicy policy s =
      some (b ++ (insertSeparatorRev m policy.separator policy.groups).reverse ++ a) := by
  unfold sepByPolicy
  rw [h]

theorem sum_map_length_const (g : Nat) :
    ∀ C : List (List Char), (∀ x ∈ C, x.length = g) →
      (C.map List.length).sum = C.length * g := by
  intro C
  induction C with
  | nil => intro _; simp
  | cons a t ih =>
    intro h
    simp only [List.map_cons, List.sum_cons, List.length_cons, h a (by simp),
      ih (fun x hx => h x (by simp [hx]))]
    ring

example : natChars 12345 = ['1', '2', '3', '4', '5'] := by decide

example : sepByPolicy COMMA_SEPARATOR (natChars 12345) =
    some ['1', '2', ',', '3', '4', '5'] := by decide

example : sepByPolicy COMMA_SEPARATOR ['-', '1', '2', '3', '4', '.', '5'] =
    some ['-', '1', ',', '2', '3', '4', '.', '5'] := by decide

example : findSpanRust ['é', '1'] (digitP COMMA_SEPARATOR) = none := by decide

example : findSpanRust ['α', 'β', '1'] (digitP COMMA_SEPARATOR) =
    some (['α'], ['β', '1'], []) := by decide

/-! ### Claim theorems -/

/-- C1: for every non-negative integer `n`, `separate_by_policy` with the
predefined comma policy returns the decimal rendering of `n` split into
comma-separated groups that all have length exactly three except the
leftmost, which has length one to three; every group character is a
decimal digit, so the only added characters are the commas. -/
theorem comma_policy_grouping (n : Nat) :
    ∃ g0 gs, sepByPolicy COMMA_SEPARATOR (natChars n) =
        some ((List.intersperse [','] (g0 :: gs)).flatten) ∧
      1 ≤ g0.length ∧ g0.length ≤ 3 ∧
      (∀ x ∈ gs, x.length = 3) ∧
      (g0 :: gs).flatten = natChars n ∧
      (∀ x ∈ g0 :: gs, ∀ c ∈ x, c ∈ ASCII_DECIMAL) := by
  have hne := natChars_ne_nil n
  have hdig := natChars_digits n
  have hA : ∀ c ∈ natChars n, utf8Size c = 1 := fun c hc => ascii_dec_utf8 c (hdig c hc)
  have hP : ∀ c ∈ natChars n, digitP COMMA_SEPARATOR c = true := fun c hc =>
    (digitP_iff COMMA_SEPARATOR c).mpr (hdig c hc)
  have hspan := span_all_digits (natChars n) (digitP COMMA_SEPARATOR) hA hne hP
  have hout := sepByPolicy_of_span COMMA_SEPARATOR (natChars n) [] (natChars n) [] hspan
  have hrevne : (natChars n).reverse ≠ [] := by simpa using hne
  obtain ⟨C, last, hC, hCl, hl1, hl2⟩ :=
    chunksF_struct 3 (by omega) (natChars n).reverse.length (natChars n).reverse le_rfl hrevne
  have hmap : ((C ++ [last]).map List.reverse).reverse =
      last.reverse :: (C.map List.reverse).reverse := by simp
  have hflat : (last.reverse :: (C.map List.reverse).reverse).flatten = natChars n := by
    rw [← hmap, ← List.reverse_flatten, ← hC,
      chunksF_flatten 3 (natChars n).reverse.length (natChars n).reverse le_rfl 3]
    simp
  refine ⟨last.reverse, (C.map List.reverse).reverse, ?_,
    by simpa using hl1, by simpa using hl2, ?_, hflat, ?_⟩
  · have hsep : COMMA_SEPARATOR.separator = ',' := rfl
    have hgr : COMMA_SEPARATOR.groups = [3] := rfl
    rw [hout, hsep, hgr,
      insertSeparatorRev_single_rev ',' 3 (by omega) (by omega) (natChars n), hC, hmap]
    simp
  · intro x hx
    rw [List.mem_reverse, List.mem_map] at hx
    obtain ⟨y, hy, hxy⟩ := hx
    rw [← hxy]
    simp [hCl y hy]
  · intro x hx c hc
    have hcm : c ∈ (last.reverse :: (C.map List.reverse).reverse).flatten :=
      List.mem_flatten.mpr ⟨x, hx, hc⟩
    rw [hflat] at hcm
    exact hdig c hcm

/-- C6: when the (single) group size divides the length of the digit run
exactly, `insert_separator_rev` partitions the run into groups of exactly
that size, so no spurious separator appears before the most significant
digit: the formatted run starts with the same character as the run. -/
theorem exact_division_no_leading_separator (sep : Char) (g : Nat) (m : List Char)
    (hg1 : 1 ≤ g) (hg2 : g ≤ 255) (hdvd : g ∣ m.length) :
    ∃ gs, (insertSeparatorRev m sep [g]).reverse = (List.intersperse [sep] gs).flatten ∧
      (∀ x ∈ gs, x.length = g) ∧
      gs.flatten = m ∧
      ((insertSeparatorRev m sep [g]).reverse).head? = m.head? := by
  by_cases hne : m = []
  · subst hne
    exact ⟨[], by simp [insertSeparatorRev, insLoop], by simp, by simp,
      by simp [insertSeparatorRev, insLoop]⟩
  · have hrevne : m.reverse ≠ [] := by simpa using hne
    obtain ⟨C, last, hC, hCl, hl1, hl2⟩ :=
      chunksF_struct g hg1 m.reverse.length m.reverse le_rfl hrevne
    have hflat_chunks : (C ++ [last]).flatten = m.reverse := by
      rw [← hC]
      exact chunksF_flatten g m.reverse.length m.reverse le_rfl g
    have hlen : m.length = (C.map List.length).sum + last.length := by
      have h1 := List.length_flatten (C ++ [last])
      rw [hflat_chunks, List.length_reverse] at h1
      rw [h1]
      simp
    have heq : m.length = C.length * g + last.length := by
      rw [hlen, sum_map_length_const g C hCl]
    have hdg : g ∣ C.length * g := Dvd.intro_left C.length rfl
    have hdvd2 : g ∣ last.length := by
      have h2 : g ∣ C.length * g + last.length := by rw [← heq]; exact hdvd
      exact (Nat.dvd_add_right hdg).mp h2
    have hlast : last.length = g := by
      have hge : g ≤ last.length := Nat.le_of_dvd (by omega) hdvd2
      omega
    have hmap : ((C ++ [last]).map List.reverse).reverse =
        last.reverse :: (C.map List.reverse).reverse := by simp
    have hflat : (last.reverse :: (C.map List.reverse).reverse).flatten = m := by
      rw [← hmap, ← List.reverse_flatten, hflat_chunks]
      simp
    refine ⟨last.reverse :: (C.map List.reverse).reverse, ?_, ?_, hflat, ?_⟩
    · rw [insertSeparatorRev_single_rev sep g hg1 hg2 m, hC, hmap]
    · intro x hx
      rcases List.mem_cons.mp hx with hx | hx
      · rw [hx]; simpa using hlast
      · rw [List.mem_reverse, List.mem_map] at hx
        obtain ⟨y, hy, hxy⟩ := hx
        rw [← hxy]
        simp [hCl y hy]
    · rw [List.head?_reverse, insertSeparatorRev,
        insLoop_getLast? sep m.reverse 0 [g], List.getLast?_reverse]

/-- C6 witness: at the three-digit run "123" with groups `[3]`: since 3
divides 3 there is a single group, no separator at all, and the formatted
run starts with the digit 1. -/
theorem exact_division_no_leading_separator_witness :
    ∃ gs, (insertSeparatorRev ['1', '2', '3'] ',' [3]).reverse =
        (List.intersperse [','] gs).flatten ∧
      (∀ x ∈ gs, x.length = 3) ∧
      gs.flatten = ['1', '2', '3'] ∧
      ((insertSeparatorRev ['1', '2', '3'] ',' [3]).reverse).head? =
        (['1', '2', '3'] : List Char).head? :=
  exact_division_no_leading_separator ',' 3 ['1', '2', '3'] (by decide) (by decide) (by decide)

/-- C5: with groups `[1,2,3,4,5]` a run of twenty symbols is partitioned
from the right into groups of sizes 1, 2, 3, 4, 5 and a sixth leftmost
group of size 5 (the last explicit size repeated), giving
"KJIHG,FEDCB,A987,654,32,1". -/
theorem groups_one_to_five_twenty :
    (insertSeparatorRev
      ['K', 'J', 'I', 'H', 'G', 'F', 'E', 'D', 'C', 'B',
       'A', '9', '8', '7', '6', '5', '4', '3', '2', '1'] ',' [1, 2, 3, 4, 5]).reverse =
    ['K', 'J', 'I', 'H', 'G', ',', 'F', 'E', 'D', 'C', 'B', ',',
     'A', '9', '8', '7', ',', '6', '5', '4', ',', '3', '2', ',', '1'] := by
  decide

/-- C7: an input none of whose characters is a policy digit is split as
(whole input, empty, empty) by `find_span`, and `separate_by_policy`
returns it unchanged. -/
theorem no_digits_input_unchanged (policy : SeparatorPolicy) (s : List Char)
    (h : ∀ c ∈ s, digitP policy c = false) :
    findSpanRust s (digitP policy) = some (s, [], []) ∧
      sepByPolicy policy s = some s := by
  have hspan := span_no_digits s (digitP policy) h
  refine ⟨hspan, ?_⟩
  rw [sepByPolicy_of_span policy s s [] [] hspan]
  simp [insertSeparatorRev, insLoop]

/-- C7 witness: the digit-free input "abc" under the comma policy. -/
theorem no_digits_input_unchanged_witness :
    findSpanRust ['a', 'b', 'c'] (digitP COMMA_SEPARATOR) =
        some (['a', 'b', 'c'], [], []) ∧
      sepByPolicy COMMA_SEPARATOR ['a', 'b', 'c'] = some ['a', 'b', 'c'] :=
  no_digits_input_unchanged COMMA_SEPARATOR ['a', 'b', 'c'] (by decide)

/-- C8: formatting "-1234.5" with the comma policy: the span is the prefix
"-", the digits "1234" and the suffix ".5"; the output is "-1,234.5", so
the second digit run "5" after the decimal point is untouched. -/
theorem minus_sign_decimal_point :
    findSpanRust ['-', '1', '2', '3', '4', '.', '5'] (digitP COMMA_SEPARATOR) =
      some (['-'], ['1', '2', '3', '4'], ['.', '5']) ∧
    sepByPolicy COMMA_SEPARATOR ['-', '1', '2', '3', '4', '.', '5'] =
      some ['-', '1', ',', '2', '3', '4', '.', '5'] :=
  ⟨by decide, by decide⟩

/-- C2: the span invariant fails on multi-byte input.  On "αβ1" the first
digit has character index 2, which `find_span` uses as a byte offset; byte
2 is a character boundary (after the two-byte 'α'), so no panic occurs, but
the returned span is prefix "α", digits "β1", suffix "" — the digits slice
contains the non-digit 'β', and the prefix fails maximality. -/
theorem find_span_multibyte_wrong_span :
    findSpanRust ['α', 'β', '1'] (digitP COMMA_SEPARATOR) =
      some (['α'], ['β', '1'], []) ∧
    'β' ∈ (['β', '1'] : List Char) ∧
    digitP COMMA_SEPARATOR 'β' = false :=
  ⟨by decide, by decide, by decide⟩

/-- C3: `find_span` is not UTF-8 safe.  On "é1" the first digit has
character index 1, but byte offset 1 falls inside the two-byte encoding of
'é', so the slicing panics (modelled as `none`), and `separate_by_policy`
panics as well. -/
theorem find_span_multibyte_panics :
    findSpanRust ['é', '1'] (digitP COMMA_SEPARATOR) = none ∧
    sepByPolicy COMMA_SEPARATOR ['é', '1'] = none :=
  ⟨by decide, by decide⟩

/-- C4 counterexample: with an empty group list the formatting call does
not fail fast: on "123" it returns the defined output "123" instead of
panicking. -/
theorem empty_groups_no_panic :
    sepByPolicy { separator := ',', groups := [], digits := ASCII_DECIMAL }
      ['1', '2', '3'] = some ['1', '2', '3'] := by decide

/-- C4 amended: an empty group list is not a failure condition in the code:
whenever the span locator returns, `separate_by_policy` with an empty group
list inserts no separator and returns the input unchanged. -/
theorem empty_groups_identity (policy : SeparatorPolicy) (s b m a : List Char)
    (hg : policy.groups = [])
    (hs : findSpanRust s (digitP policy) = some (b, m, a)) :
    sepByPolicy policy s = some s := by
  rw [sepByPolicy_of_span policy s b m a hs, hg, insertSeparatorRev,
    insLoop_nil_groups policy.separator m.reverse 0, List.reverse_reverse,
    findSpan_partition s (digitP policy) b m a hs]

/-- C4 amended, witness: the empty-groups policy leaves "a1b" unchanged. -/
theorem empty_groups_identity_witness :
    sepByPolicy { separator := ',', groups := [], digits := ASCII_DECIMAL }
      ['a', '1', 'b'] = some ['a', '1', 'b'] :=
  empty_groups_identity _ ['a', '1', 'b'] ['a'] ['1'] ['b'] rfl (by decide)

/-- The `u8` counter never matches the zero-sized head group again while it
stays in `1..=255`, so the characters pass through unchanged. -/
theorem insLoop_zero_no_more (sep : Char) :
    ∀ (cs : List Char) (k : Nat), 1 ≤ k → k + cs.length ≤ 256 →
      insLoop sep cs k [0] = cs := by
  intro cs
  induction cs with
  | nil => intro k _ _; rfl
  | cons c rest ih =>
    intro k hk hle
    have hcond : ¬(([0] : List Nat).head? = some k) := by
      simp only [List.head?_cons, Option.some.injEq]
      omega
    rw [show insLoop sep (c :: rest) k [0] =
        c :: insLoop sep rest ((k + 1) % 256) [0] from by
      simp only [insLoop, if_neg hcond]]
    by_cases h256 : k + 1 = 256
    · have hnil : rest = [] := by
        cases rest with
        | nil => rfl
        | cons d r2 => simp at hle; omega
      rw [hnil]
      simp [insLoop]
    · simp only [List.length_cons] at hle
      have hmod : (k + 1) % 256 = k + 1 := Nat.mod_eq_of_lt (by omega)
      rw [hmod, ih (k + 1) (by omega) (by omega)]

/-- C10 counterexample: with groups `[0]` and a run of 257 digits the `u8`
counter wraps around to zero and the zero-sized group matches a second
time, so two separators are inserted instead of exactly one. -/
theorem zero_group_long_run_two_separators :
    (sepByPolicy { separator := ',', groups := [0], digits := ASCII_DECIMAL }
      (List.replicate 257 '1')).map (List.count ',') = some 2 := by decide

/-- C10 amended: for a policy whose group list is `[0]`, on any input whose
digit run is non-empty and at most 256 characters (so the `u8` counter
cannot wrap), exactly one separator is inserted, immediately after the
least significant digit, between the digit run and the suffix. -/
theorem zero_group_single_separator (policy : SeparatorPolicy) (s b m a : List Char)
    (hg : policy.groups = [0])
    (hs : findSpanRust s (digitP policy) = some (b, m, a))
    (hne : m ≠ []) (hlen : m.length ≤ 256) :
    sepByPolicy policy s = some (b ++ m ++ [policy.separator] ++ a) := by
  rw [sepByPolicy_of_span policy s b m a hs, hg]
  rcases List.exists_cons_of_ne_nil (show m.reverse ≠ [] by simpa using hne)
    with ⟨c, rest, hrev⟩
  have hrest_len : rest.length ≤ 255 := by
    have hrl : m.reverse.length = m.length := List.length_reverse m
    rw [hrev] at hrl
    simp at hrl
    omega
  have hmatch : insLoop policy.separator (c :: rest) 0 [0] =
      policy.separator :: c :: insLoop policy.separator rest 1 [0] := by
    simp [insLoop]
  rw [insertSeparatorRev, hrev, hmatch,
    insLoop_zero_no_more policy.separator rest 1 (by omega) (by omega)]
  have hm : m = rest.reverse ++ [c] := by
    have h2 := congrArg List.reverse hrev
    rw [List.reverse_reverse] at h2
    rw [h2]
    simp
  rw [hm]
  simp [List.append_assoc]

/-- C10 amended, witness: groups `[0]` on "x12y" puts one separator right
after the digit run: "x12,y". -/
theorem zero_group_single_separator_witness :
    sepByPolicy { separator := ',', groups := [0], digits := ASCII_DECIMAL }
      ['x', '1', '2', 'y'] = some (['x'] ++ ['1', '2'] ++ [','] ++ ['y']) :=
  zero_group_single_separator _ ['x', '1', '2', 'y'] ['x'] ['1', '2'] ['y'] rfl
    (by decide) (by decide) (by decide)

theorem takeWhile_append_all (q : Char → Bool) :
    ∀ (l1 l2 : List Char), (∀ x ∈ l1, q x = true) →
      (l1 ++ l2).takeWhile q = l1 ++ l2.takeWhile q := by
  intro l1 l2
  induction l1 with
  | nil => intro _; rfl
  | cons c rest ih =>
    intro h
    rw [List.cons_append, List.takeWhile_cons_of_pos (h c (by simp)),
      ih (fun x hx => h x (by simp [hx])), List.cons_append]

theorem dropWhile_append_all (q : Char → Bool) :
    ∀ (l1 l2 : List Char), (∀ x ∈ l1, q x = true) →
      (l1 ++ l2).dropWhile q = l2.dropWhile q := by
  intro l1 l2
  induction l1 with
  | nil => intro _; rfl
  | cons c rest ih =>
    intro h
    rw [List.cons_append, List.dropWhile_cons_of_pos (h c (by simp)),
      ih (fun x hx => h x (by simp [hx]))]

/-- C9 counterexample: formatting "1234" yields "1,234".  Re-locating the
span of the output yields prefix "", digits "1" and suffix ",234": the
suffix content differs from the input span's suffix "" and the located
digit run got shorter, not longer. -/
theorem relocate_output_span_changes :
    sepByPolicy COMMA_SEPARATOR ['1', '2', '3', '4'] = some ['1', ',', '2', '3', '4'] ∧
    findSpanRust ['1', '2', '3', '4'] (digitP COMMA_SEPARATOR) =
      some ([], ['1', '2', '3', '4'], []) ∧
    findSpanRust ['1', ',', '2', '3', '4'] (digitP COMMA_SEPARATOR) =
      some ([], ['1'], [',', '2', '3', '4']) ∧
    ([',', '2', '3', '4'] : List Char) ≠ ([] : List Char) ∧
    (['1'] : List Char).length < (['1', '2', '3', '4'] : List Char).length :=
  ⟨by decide, by decide, by decide, by decide, by decide⟩

/-- C9 amended: for one-byte (ASCII) inputs, re-locating the span of the
comma-policy output yields the same prefix, an output at least as long as
the input, and a suffix that contains the input span's suffix as a suffix
(the separators and the remaining groups are absorbed into the suffix,
since commas are not digits). -/
theorem relocate_output_span (s b m a : List Char)
    (hA : ∀ c ∈ s, utf8Size c = 1)
    (hs : findSpanRust s (digitP COMMA_SEPARATOR) = some (b, m, a)) :
    ∃ out b2 m2 a2,
      sepByPolicy COMMA_SEPARATOR s = some out ∧
      findSpanRust out (digitP COMMA_SEPARATOR) = some (b2, m2, a2) ∧
      b2 = b ∧ s.length ≤ out.length ∧ a.IsSuffix a2 := by
  have hspan := spanAscii s (digitP COMMA_SEPARATOR) hA
  rw [hs] at hspan
  simp only [Option.some.injEq, Prod.mk.injEq] at hspan
  obtain ⟨hb, hm, ha⟩ := hspan
  have hpart := findSpan_partition s (digitP COMMA_SEPARATOR) b m a hs
  have hout := sepByPolicy_of_span COMMA_SEPARATOR s b m a hs
  have hsep : COMMA_SEPARATOR.separator = ',' := rfl
  have hgr : COMMA_SEPARATOR.groups = [3] := rfl
  rw [hsep, hgr] at hout
  have hbnd : ∀ c ∈ b, digitP COMMA_SEPARATOR c = false := by
    intro c hc
    rw [hb] at hc
    have := List.mem_takeWhile_imp hc
    simpa using this
  have hmd : ∀ c ∈ m, digitP COMMA_SEPARATOR c = true := by
    intro c hc
    rw [hm] at hc
    exact List.mem_takeWhile_imp hc
  have hmsub : ∀ c ∈ m, c ∈ s := by
    intro c hc
    rw [hm] at hc
    exact (List.dropWhile_sublist _).subset ((List.takeWhile_sublist _).subset hc)
  have hbsub : ∀ c ∈ b, c ∈ s := by
    intro c hc
    rw [hb] at hc
    exact (List.takeWhile_sublist _).subset hc
  have hasub : ∀ c ∈ a, c ∈ s := by
    intro c hc
    rw [ha] at hc
    exact (List.dropWhile_sublist _).subset ((List.dropWhile_sublist _).subset hc)
  have hfmem : ∀ c ∈ (insertSeparatorRev m ',' [3]).reverse, c = ',' ∨ c ∈ m := by
    intro c hc
    rw [List.mem_reverse] at hc
    rcases insLoop_mem ',' m.reverse 0 [3] c hc with h | h
    · exact Or.inl h
    · exact Or.inr (by rwa [List.mem_reverse] at h)
  have hfascii : ∀ c ∈ (insertSeparatorRev m ',' [3]).reverse, utf8Size c = 1 := by
    intro c hc
    rcases hfmem c hc with h | h
    · rw [h]; decide
    · exact hA c (hmsub c h)
  have houtascii : ∀ c ∈ b ++ (insertSeparatorRev m ',' [3]).reverse ++ a,
      utf8Size c = 1 := by
    intro c hc
    simp only [List.mem_append] at hc
    rcases hc with (hc | hc) | hc
    · exact hA c (hbsub c hc)
    · exact hfascii c hc
    · exact hA c (hasub c hc)
  have hflen : m.length ≤ (insertSeparatorRev m ',' [3]).reverse.length := by
    rw [List.length_reverse]
    calc m.length = m.reverse.length := (List.length_reverse m).symm
      _ ≤ _ := insLoop_length ',' m.reverse 0 [3]
  by_cases hmne : m = []
  · have hf0 : (insertSeparatorRev m ',' [3]).reverse = [] := by
      rw [hmne]
      rfl
    have hba : b ++ a = s := by
      rw [hmne] at hpart
      simpa using hpart
    refine ⟨s, b, m, a, ?_, hs, rfl, le_rfl, List.suffix_rfl⟩
    rw [hout, hf0]
    simp [hba]
  · rcases List.exists_cons_of_ne_nil hmne with ⟨h0, m', hm'⟩
    have hph : digitP COMMA_SEPARATOR h0 = true := hmd h0 (by rw [hm']; simp)
    have hfh : ((insertSeparatorRev m ',' [3]).reverse).head? = some h0 := by
      rw [List.head?_reverse, insertSeparatorRev, insLoop_getLast? ',' m.reverse 0 [3],
        List.getLast?_reverse, hm']
      rfl
    obtain ⟨f', hf'⟩ : ∃ f', (insertSeparatorRev m ',' [3]).reverse = h0 :: f' := by
      cases hfc : (insertSeparatorRev m ',' [3]).reverse with
      | nil => rw [hfc] at hfh; simp at hfh
      | cons x f2 =>
        rw [hfc] at hfh
        simp at hfh
        exact ⟨f2, by rw [hfh]⟩
    have htw_out : (b ++ (insertSeparatorRev m ',' [3]).reverse ++ a).takeWhile
        (fun c => !(digitP COMMA_SEPARATOR c)) = b := by
      rw [List.append_assoc, takeWhile_append_all _ b _ (by
        intro x hx
        simp [hbnd x hx])]
      rw [hf', List.cons_append, List.takeWhile_cons_of_neg (by simp [hph])]
      simp
    have hdw_out : (b ++ (insertSeparatorRev m ',' [3]).reverse ++ a).dropWhile
        (fun c => !(digitP COMMA_SEPARATOR c)) =
        (insertSeparatorRev m ',' [3]).reverse ++ a := by
      rw [List.append_assoc, dropWhile_append_all _ b _ (by
        intro x hx
        simp [hbnd x hx])]
      rw [hf', List.cons_append, List.dropWhile_cons_of_neg (by simp [hph]),
        ← List.cons_append, ← hf']
    have hspan_out := spanAscii (b ++ (insertSeparatorRev m ',' [3]).reverse ++ a)
      (digitP COMMA_SEPARATOR) houtascii
    rw [htw_out, hdw_out] at hspan_out
    refine ⟨b ++ (insertSeparatorRev m ',' [3]).reverse ++ a, b,
      ((insertSeparatorRev m ',' [3]).reverse ++ a).takeWhile (digitP COMMA_SEPARATOR),
      ((insertSeparatorRev m ',' [3]).reverse ++ a).dropWhile (digitP COMMA_SEPARATOR),
      hout, hspan_out, rfl, ?_, ?_⟩
    · have h1 : s.length = b.length + m.length + a.length := by
        rw [← hpart]
        simp only [List.length_append]
      simp only [List.length_append]
      omega
    · rw [List.dropWhile_append]
      by_cases hfd : (((insertSeparatorRev m ',' [3]).reverse).dropWhile
          (digitP COMMA_SEPARATOR)).isEmpty = true
      · rw [if_pos hfd]
        cases hac : a with
        | nil => simp
        | cons w v =>
          have hw : digitP COMMA_SEPARATOR w = false := by
            apply dropWhile_head_false (digitP COMMA_SEPARATOR)
              (s.dropWhile fun c => !(digitP COMMA_SEPARATOR c)) w v
            rw [← ha, hac]
          rw [List.dropWhile_cons_of_neg (by simp [hw])]
      · rw [if_neg hfd]
        exact ⟨_, rfl⟩

/-- C9 amended, witness: at the input "1234". -/
theorem relocate_output_span_witness :
    ∃ out b2 m2 a2,
      sepByPolicy COMMA_SEPARATOR ['1', '2', '3', '4'] = some out ∧
      findSpanRust out (digitP COMMA_SEPARATOR) = some (b2, m2, a2) ∧
      b2 = [] ∧ (['1', '2', '3', '4'] : List Char).length ≤ out.length ∧
      ([] : List Char).IsSuffix a2 :=
  relocate_output_span ['1', '2', '3', '4'] [] ['1', '2', '3', '4'] []
    (by decide) (by decide)

end Thousands
